import Mathlib

/-!
csi-driver-nfs, the driver composition root (`pkg/nfs/nfs.go`)

A shallow embedding of `pkg/nfs/nfs.go` and of the library functions it calls,
followed by the properties of the driver that the design document states.

* Go strings are byte sequences: `GoString`.
* A Go `map[string]string` is given by the sequence of its entries in the order
  in which a `range` loop visits them; Go leaves that order unspecified, so a
  statement about a map holds for the map only if it holds for every ordering
  of its entries.
* A run-time panic (a slice expression out of range) is the value `none`.
-/

namespace NFS

/-! ## Go strings -/

/-- A Go string: an immutable sequence of bytes. -/
abbrev GoString := List UInt8

/-- The Go string written by a string literal: the UTF-8 encoding of its characters. -/
def lit (s : String) : GoString := s.toList.flatMap String.utf8EncodeChar

/-- The slice expression `s[lo:hi]`; it panics unless `lo ≤ hi ≤ len(s)`. -/
def slice (s : GoString) (lo hi : Nat) : Option GoString :=
  if lo ≤ hi ∧ hi ≤ s.length then some ((s.drop lo).take (hi - lo)) else none

/-- The slice expression `s[lo:]`; it panics unless `lo ≤ len(s)`. -/
def sliceFrom (s : GoString) (lo : Nat) : Option GoString :=
  if lo ≤ s.length then some (s.drop lo) else none

/-! ## Package `unicode/utf8` -/

/-- Whether `b` lies in the closed byte range `lo..hi`. -/
def inRange (b lo hi : UInt8) : Bool := decide (lo ≤ b) && decide (b ≤ hi)

/-- The size returned by `utf8.DecodeRuneInString(s)`: the width in bytes of the
first UTF-8 sequence of `s`, `1` for an invalid or truncated encoding and `0` for
the empty string. The branches are the rows of the tables `first` and
`acceptRanges` of the package. -/
def decodeRuneSize : GoString → Nat
  | [] => 0
  | s0 :: rest =>
    if s0 < 0x80 then 1
    else if s0 < 0xC2 then 1
    else if s0 < 0xE0 then
      match rest with
      | s1 :: _ => if inRange s1 0x80 0xBF then 2 else 1
      | _ => 1
    else if s0 < 0xF0 then
      match rest with
      | s1 :: s2 :: _ =>
        let lo : UInt8 := if s0 = 0xE0 then 0xA0 else 0x80
        let hi : UInt8 := if s0 = 0xED then 0x9F else 0xBF
        if inRange s1 lo hi && inRange s2 0x80 0xBF then 3 else 1
      | _ => 1
    else if s0 < 0xF5 then
      match rest with
      | s1 :: s2 :: s3 :: _ =>
        let lo : UInt8 := if s0 = 0xF0 then 0x90 else 0x80
        let hi : UInt8 := if s0 = 0xF4 then 0x8F else 0xBF
        if inRange s1 lo hi && inRange s2 0x80 0xBF && inRange s3 0x80 0xBF then 4 else 1
      | _ => 1
    else 1

/-- The loop of `utf8.RuneCountInString`: `skip` bytes of the current sequence are
still to be passed over before the next rune starts. -/
def RuneCountInString.go : Nat → GoString → Nat
  | _, [] => 0
  | 0, c :: t => 1 + RuneCountInString.go (decodeRuneSize (c :: t) - 1) t
  | skip + 1, _ :: t => RuneCountInString.go skip t

/-- The function `utf8.RuneCountInString`: the number of runes in `s`, every invalid
byte counting as one rune of width 1. -/
def RuneCountInString (s : GoString) : Nat := RuneCountInString.go 0 s

/-! ## Package `strings` -/

/-- The function `strings.HasPrefix`. -/
def HasPrefix (s pre : GoString) : Bool := pre.isPrefixOf s

/-- The function `strings.Index`: the index of the first instance of `substr` in `s`;
`none` stands for the result `-1` (no instance). -/
def Index : GoString → GoString → Option Nat
  | [], substr => if substr = [] then some 0 else none
  | c :: t, substr =>
    if HasPrefix (c :: t) substr then some 0 else (Index t substr).map (· + 1)

/-- The loop of `strings.Count` for a non-empty `substr`:
`for { i := Index(s, substr); if i == -1 { return n }; n++; s = s[i+len(substr):] }`.
Every round shortens `s`, so `len(s) + 1` rounds of fuel are never used up
(`replace_loop_eq` and `replaceAll_eq_scan` below cover every string). The fast
path of `Count` for a one-byte `substr` counts the same instances. -/
def Count.loop (substr : GoString) : Nat → GoString → Nat → Nat
  | 0, _, n => n
  | fuel + 1, s, n =>
    match Index s substr with
    | none => n
    | some i => Count.loop substr fuel (s.drop (i + substr.length)) (n + 1)

/-- The function `strings.Count`: the number of non-overlapping instances of `substr`
in `s`; for the empty `substr` it is one more than the number of runes of `s`. -/
def Count (s substr : GoString) : Nat :=
  if substr.length = 0 then RuneCountInString s + 1
  else Count.loop substr (s.length + 1) s 0

/-- The replacement loop of `strings.Replace`,
`for i := 0; i < n; i++ { ... }` followed by `b.WriteString(s[start:])`.
The first argument is the number `n - i` of rounds still to run, `b` is the
builder. When `Index` finds nothing, `j` is `start - 1` and `s[start:j]` panics. -/
def Replace.loop (s old new : GoString) : Nat → Nat → Nat → GoString → Option GoString
  | 0, _, start, b => (sliceFrom s start).map (b ++ ·)
  | rounds + 1, i, start, b =>
    let j : Option Nat :=
      if old.length = 0 then
        if i > 0 then (sliceFrom s start).map (fun t => start + decodeRuneSize t)
        else some start
      else (sliceFrom s start).bind (fun t => (Index t old).map (start + ·))
    j.bind (fun j =>
      (slice s start j).bind (fun piece =>
        Replace.loop s old new rounds (i + 1) (j + old.length) (b ++ piece ++ new)))

/-- The function `strings.Replace`: a copy of `s` with the first `n` non-overlapping
instances of `old` replaced by `new`; a negative `n` sets no limit. -/
def Replace (s old new : GoString) (n : Int) : Option GoString :=
  if old = new ∨ n = 0 then some s
  else
    let m := Count s old
    if m = 0 then some s
    else
      let n : Nat := if n < 0 ∨ (m : Int) < n then m else n.toNat
      Replace.loop s old new n 0 0 []

/-- The function `strings.ReplaceAll`: `Replace(s, old, new, -1)`. -/
def ReplaceAll (s old new : GoString) : Option GoString := Replace s old new (-1)

/-- Specification of a single replacement, for a non-empty `k`: `s` is scanned from
left to right and every occurrence of `k` that does not overlap an occurrence
already replaced is replaced by `v`. `skip` is the number of bytes of the
occurrence just replaced that are still to be passed over. -/
def replaceOccurrences (k v : GoString) : Nat → GoString → GoString
  | _, [] => []
  | skip + 1, _ :: t => replaceOccurrences k v skip t
  | 0, c :: t =>
    if k.isPrefixOf (c :: t) then v ++ replaceOccurrences k v (k.length - 1) t
    else c :: replaceOccurrences k v 0 t

/-! ## Package `csi` (the CSI protocol messages) -/

namespace csi

/-- The enum `ControllerServiceCapability_RPC_Type`, an `int32`. -/
structure ControllerServiceCapability_RPC_Type where
  val : Int
  deriving DecidableEq

/-! The constants of the enum that `nfs.go` names, with their numbers in the CSI
protocol definition. -/

def ControllerServiceCapability_RPC_UNKNOWN : ControllerServiceCapability_RPC_Type := ⟨0⟩
def ControllerServiceCapability_RPC_CREATE_DELETE_VOLUME : ControllerServiceCapability_RPC_Type := ⟨1⟩
def ControllerServiceCapability_RPC_CREATE_DELETE_SNAPSHOT : ControllerServiceCapability_RPC_Type := ⟨5⟩
def ControllerServiceCapability_RPC_CLONE_VOLUME : ControllerServiceCapability_RPC_Type := ⟨7⟩
def ControllerServiceCapability_RPC_SINGLE_NODE_MULTI_WRITER : ControllerServiceCapability_RPC_Type := ⟨13⟩

/-- The message `ControllerServiceCapability_RPC`. -/
structure ControllerServiceCapability_RPC where
  Type_ : ControllerServiceCapability_RPC_Type
  deriving DecidableEq

/-- The one-of wrapper `ControllerServiceCapability_Rpc`. -/
structure ControllerServiceCapability_Rpc where
  Rpc : ControllerServiceCapability_RPC
  deriving DecidableEq

/-- The message `ControllerServiceCapability`. -/
structure ControllerServiceCapability where
  Type_ : ControllerServiceCapability_Rpc
  deriving DecidableEq

/-- The enum `NodeServiceCapability_RPC_Type`, an `int32`. -/
structure NodeServiceCapability_RPC_Type where
  val : Int
  deriving DecidableEq

/-! The constants of the enum that `nfs.go` names, with their numbers in the CSI
protocol definition. -/

def NodeServiceCapability_RPC_UNKNOWN : NodeServiceCapability_RPC_Type := ⟨0⟩
def NodeServiceCapability_RPC_GET_VOLUME_STATS : NodeServiceCapability_RPC_Type := ⟨2⟩
def NodeServiceCapability_RPC_SINGLE_NODE_MULTI_WRITER : NodeServiceCapability_RPC_Type := ⟨5⟩

/-- The message `NodeServiceCapability_RPC`. -/
structure NodeServiceCapability_RPC where
  Type_ : NodeServiceCapability_RPC_Type
  deriving DecidableEq

/-- The one-of wrapper `NodeServiceCapability_Rpc`. -/
structure NodeServiceCapability_Rpc where
  Rpc : NodeServiceCapability_RPC
  deriving DecidableEq

/-- The message `NodeServiceCapability`. -/
structure NodeServiceCapability where
  Type_ : NodeServiceCapability_Rpc
  deriving DecidableEq

end csi

/-! ## Parts of package `nfs` declared outside `nfs.go` -/

/-- Modelled from the spec: `NewControllerServiceCapability` is declared outside
`nfs.go`; the registry "holds the declared set of controller-side ... operations",
so the capability built for an operation is the message that names that operation. -/
def NewControllerServiceCapability (c : csi.ControllerServiceCapability_RPC_Type) :
    csi.ControllerServiceCapability :=
  { Type_ := { Rpc := { Type_ := c } } }

/-- Modelled from the spec: `NewNodeServiceCapability` is declared outside `nfs.go`;
the capability built for a node-side operation is the message that names it. -/
def NewNodeServiceCapability (c : csi.NodeServiceCapability_RPC_Type) :
    csi.NodeServiceCapability :=
  { Type_ := { Rpc := { Type_ := c } } }

/-- Modelled from the spec: the type `VolumeLocks` is declared outside `nfs.go`; it is
"a mapping from VolumeIdentifier to an exclusive-hold token", kept here as the list
of the identifiers that are held. -/
structure VolumeLocks where
  locks : List GoString
  deriving DecidableEq

/-- Modelled from the spec: `NewVolumeLocks` is declared outside `nfs.go`; a table
that was just built holds no identifier. -/
def NewVolumeLocks : VolumeLocks := { locks := [] }

/-- The node server, declared outside `nfs.go`: `NewNodeServer` fills it with the
driver and a mounter. Only `Run` stores one in the driver, `NewDriver` leaves the
pointer nil, so the record keeps no more than which kind of mounter it was given. -/
structure NodeServer where
  forceUnmounter : Bool
  deriving DecidableEq

/-! ## `pkg/nfs/nfs.go` -/

/-- The struct `DriverOptions`: driver parameters specified in the driver deployment. -/
structure DriverOptions where
  NodeID : GoString
  DriverName : GoString
  Endpoint : GoString
  MountPermissions : Nat -- uint64, only copied
  WorkingMountDir : GoString
  DefaultOnDeletePolicy : GoString
  deriving DecidableEq

/-- The struct `Driver`. A nil pointer is `none`. -/
structure Driver where
  name : GoString
  nodeID : GoString
  version : GoString
  endpoint : GoString
  mountPermissions : Nat -- uint64, only copied
  workingMountDir : GoString
  defaultOnDeletePolicy : GoString
  ns : Option NodeServer
  cscap : List csi.ControllerServiceCapability
  nscap : List csi.NodeServiceCapability
  volumeLocks : Option VolumeLocks
  deriving DecidableEq

def DefaultDriverName : GoString := lit "nfs.csi.k8s.io"
def paramServer : GoString := lit "server"
def paramShare : GoString := lit "share"
def paramSubDir : GoString := lit "subdir"
def paramOnDelete : GoString := lit "ondelete"
def mountOptionsField : GoString := lit "mountoptions"
def mountPermissionsField : GoString := lit "mountpermissions"
def pvcNameKey : GoString := lit "csi.storage.k8s.io/pvc/name"
def pvcNamespaceKey : GoString := lit "csi.storage.k8s.io/pvc/namespace"
def pvNameKey : GoString := lit "csi.storage.k8s.io/pv/name"
def pvcNameMetadata : GoString := lit "$\x7bpvc.metadata.name\x7d"
def pvcNamespaceMetadata : GoString := lit "$\x7bpvc.metadata.namespace\x7d"
def pvNameMetadata : GoString := lit "$\x7bpv.metadata.name\x7d"

/-- The method `Driver.AddControllerServiceCapabilities`: `csc` starts as the nil
slice, every element of `cl` appends one capability, and the result replaces
`n.cscap`. -/
def Driver.AddControllerServiceCapabilities (n : Driver)
    (cl : List csi.ControllerServiceCapability_RPC_Type) : Driver :=
  let csc := cl.foldl (fun csc c => csc ++ [NewControllerServiceCapability c]) []
  { n with cscap := csc }

/-- The method `Driver.AddNodeServiceCapabilities`. -/
def Driver.AddNodeServiceCapabilities (n : Driver)
    (nl : List csi.NodeServiceCapability_RPC_Type) : Driver :=
  let nsc := nl.foldl (fun nsc c => nsc ++ [NewNodeServiceCapability c]) []
  { n with nscap := nsc }

/-- The function `NewDriver`. The package variable `driverVersion` is declared
outside `nfs.go` and is a parameter here; the log line has no effect on the result.
The composite literal names six fields, the other fields start at their zero
value. -/
def NewDriver (driverVersion : GoString) (options : DriverOptions) : Driver :=
  let n : Driver :=
    { name := options.DriverName
      version := driverVersion
      nodeID := options.NodeID
      endpoint := options.Endpoint
      mountPermissions := options.MountPermissions
      workingMountDir := options.WorkingMountDir
      defaultOnDeletePolicy := []
      ns := none
      cscap := []
      nscap := []
      volumeLocks := none }
  let n := n.AddControllerServiceCapabilities
    [ csi.ControllerServiceCapability_RPC_CREATE_DELETE_VOLUME,
      csi.ControllerServiceCapability_RPC_SINGLE_NODE_MULTI_WRITER,
      csi.ControllerServiceCapability_RPC_CLONE_VOLUME,
      csi.ControllerServiceCapability_RPC_CREATE_DELETE_SNAPSHOT ]
  let n := n.AddNodeServiceCapabilities
    [ csi.NodeServiceCapability_RPC_GET_VOLUME_STATS,
      csi.NodeServiceCapability_RPC_SINGLE_NODE_MULTI_WRITER,
      csi.NodeServiceCapability_RPC_UNKNOWN ]
  { n with volumeLocks := some NewVolumeLocks }

/-- The function `IsCorruptedDir`. The two functions of package `mount` it calls are
parameters: `PathExists` gives the probe's answer for a path (whether it exists, and
the error, `none` for nil), `IsCorruptedMnt` classifies an error value. -/
def IsCorruptedDir {ε : Type} (PathExists : GoString → Bool × Option ε)
    (IsCorruptedMnt : Option ε → Bool) (dir : GoString) : Bool :=
  let pathErr := (PathExists dir).2
  pathErr.isSome && IsCorruptedMnt pathErr

/-- A Go `map[string]string`, as the sequence of its entries in the order in which
`range` visits them. -/
abbrev GoMap := List (GoString × GoString)

/-- The body of the loop of `replaceWithMap` for the entry `(k, v)`:
`if k != "" { str = strings.ReplaceAll(str, k, v) }`. -/
def replaceWithMap.body (e : GoString × GoString) (str : GoString) : Option GoString :=
  if e.1 ≠ [] then ReplaceAll str e.1 e.2 else some str

/-- The function `replaceWithMap`: the loop body run for every entry of `m` in the
order of the visit. -/
def replaceWithMap (str : GoString) : GoMap → Option GoString
  | [] => some str
  | e :: m => (replaceWithMap.body e str).bind (fun str => replaceWithMap str m)

/-! ## Package `syscall` and the errors of package `os` -/

namespace syscall

/-- The type `syscall.Errno`, a `uintptr`. -/
abbrev Errno := Nat

/-! The error numbers named below, with their values on Linux. -/

def ENOENT : Errno := 2
def EIO : Errno := 5
def EACCES : Errno := 13
def ENOTCONN : Errno := 107
def EHOSTDOWN : Errno := 112
def ESTALE : Errno := 116

end syscall

/-- A non-nil Go `error` as the functions of package `os` return it: one of the three
wrappers `*os.PathError`, `*os.LinkError` and `*os.SyscallError` around the errno
of the failed system call, or an error of any other type (`other`). A bare
`syscall.Errno`, which `os.Stat` never returns, is left out. A nil `error` is
`none : Option GoError`. -/
inductive GoError where
  | PathError (Op Path : GoString) (Err : syscall.Errno)
  | LinkError (Op Old New : GoString) (Err : syscall.Errno)
  | SyscallError (Syscall : GoString) (Err : syscall.Errno)
  | other (msg : GoString)
  deriving DecidableEq

/-! ## Package `mount` (`k8s.io/mount-utils`) -/

namespace mount

/-- The function `mount.IsCorruptedMnt` of `k8s.io/mount-utils`: false for nil;
otherwise the type switch takes the wrapped errno out of a `*os.PathError`,
`*os.LinkError` or `*os.SyscallError` (it stays nil for another type), and the result
is whether that errno is ENOTCONN, ESTALE, EIO, EACCES or EHOSTDOWN. -/
def IsCorruptedMnt (err : Option GoError) : Bool :=
  match err with
  | none => false
  | some err =>
    let underlyingError : Option syscall.Errno :=
      match err with
      | .PathError _ _ e => some e
      | .LinkError _ _ _ e => some e
      | .SyscallError _ e => some e
      | .other _ => none
    underlyingError == some syscall.ENOTCONN || underlyingError == some syscall.ESTALE ||
      underlyingError == some syscall.EIO || underlyingError == some syscall.EACCES ||
      underlyingError == some syscall.EHOSTDOWN

/-- The test `errors.Is(err, fs.ErrNotExist)` on a non-nil error: the wrapped errno
is ENOENT. -/
def isNotExist : GoError → Bool
  | .PathError _ _ e => e == syscall.ENOENT
  | .LinkError _ _ _ e => e == syscall.ENOENT
  | .SyscallError _ e => e == syscall.ENOENT
  | .other _ => false

/-- The function `mount.PathExists` of `k8s.io/mount-utils`. Its call of `os.Stat` is
the parameter `osStat`, which gives the error of the call for every path (`none`
when the call succeeds). -/
def PathExists (osStat : GoString → Option GoError) (path : GoString) :
    Bool × Option GoError :=
  match osStat path with
  | none => (true, none)
  | some err =>
    if isNotExist err then (false, none)
    else if IsCorruptedMnt (some err) then (true, some err)
    else (false, some err)

end mount

/-- Answers of `os.Stat` for three paths: a mount whose server went away, a
directory the caller may not search, and a path that is not there; the call
succeeds for every other path. -/
def sampleStat (path : GoString) : Option GoError :=
  if path = lit "/mnt/stale" then some (.PathError (lit "stat") path syscall.ESTALE)
  else if path = lit "/mnt/denied" then some (.PathError (lit "stat") path syscall.EACCES)
  else if path = lit "/mnt/missing" then some (.PathError (lit "stat") path syscall.ENOENT)
  else none

/-! ## Probe answers given as a table -/

/-- The ways in which the stat-class probe of a path can fail. -/
inductive ProbeError where
  | staleHandle
  | notConnected
  | ioError
  | hostDown
  | permissionDenied
  | notFound
  deriving DecidableEq

/-! ## Templates

A template is a string cut into pieces: literal text and placeholders. The
definitions of this section are used to state which strings `replaceWithMap`
expands in the same way whatever the order of the map. -/

/-- A piece of a template: literal text, or a placeholder written as a key. -/
inductive Piece where
  | text (w : GoString)
  | key (k : GoString)
  deriving DecidableEq

/-- The string that a list of pieces spells. -/
def render : List Piece → GoString
  | [] => []
  | .text w :: ps => w ++ render ps
  | .key k :: ps => k ++ render ps

/-- One piece after the placeholder `k` has been given the value `v`. -/
def Piece.subst (k v : GoString) : Piece → Piece
  | .text w => .text w
  | .key r => if r = k then .text v else .key r

/-- The pieces after one round of the loop of `replaceWithMap` for the entry `e`. -/
def substEntry (ps : List Piece) (e : GoString × GoString) : List Piece :=
  if e.1 ≠ [] then ps.map (Piece.subst e.1 e.2) else ps

/-- A piece is well formed for the marker byte `o` and the map `m`: literal text
does not contain `o`, a placeholder is a non-empty key of `m`. -/
def Piece.WF (o : UInt8) (m : GoMap) : Piece → Prop
  | .text w => o ∉ w
  | .key r => r ≠ [] ∧ ∃ e ∈ m, e.1 = r

/-- A probe answer table for three paths: a mount whose server went away, a path
the caller may not read, and a path that is not there; every other path exists. -/
def sampleProbe (dir : GoString) : Bool × Option ProbeError :=
  if dir = lit "/mnt/stale" then (true, some .staleHandle)
  else if dir = lit "/mnt/denied" then (false, some .permissionDenied)
  else if dir = lit "/mnt/missing" then (false, none)
  else (true, none)

/-! ## Lemmas on the string functions -/

theorem sliceFrom_of_le (s : GoString) (lo : Nat) (h : lo ≤ s.length) :
    sliceFrom s lo = some (s.drop lo) := by
  simp [sliceFrom, h]

theorem slice_of_le (s : GoString) (lo n : Nat) (h : lo + n ≤ s.length) :
    slice s lo (lo + n) = some ((s.drop lo).take n) := by
  simp [slice, h]

theorem replaceOccurrences_nil (k v : GoString) (n : Nat) :
    replaceOccurrences k v n [] = [] := by
  cases n <;> rfl

theorem replaceOccurrences_skip (k v : GoString) (n : Nat) (t : GoString) :
    replaceOccurrences k v n t = replaceOccurrences k v 0 (t.drop n) := by
  induction n generalizing t with
  | zero => simp
  | succ n ih =>
    cases t with
    | nil => simp [replaceOccurrences_nil]
    | cons c t => simp [replaceOccurrences, ih t]

theorem hasPrefix_length {s k : GoString} (h : HasPrefix s k = true) :
    k.length ≤ s.length := by
  have hp : k <+: s := by
    simpa [HasPrefix] using h
  exact hp.length_le

theorem hasPrefix_eq_append {s k : GoString} (h : HasPrefix s k = true) :
    s = k ++ s.drop k.length := by
  have hp : k <+: s := by
    simpa [HasPrefix] using h
  obtain ⟨r, rfl⟩ := hp
  simp

/-- When `Index` finds nothing the scan leaves the string as it is. -/
theorem replaceOccurrences_of_index_none (k v : GoString) :
    ∀ t : GoString, Index t k = none → replaceOccurrences k v 0 t = t := by
  intro t
  induction t with
  | nil => intro _; rfl
  | cons c t ih =>
    intro h
    unfold Index at h
    by_cases hp : HasPrefix (c :: t) k = true
    · simp [hp] at h
    · simp only [hp, Bool.false_eq_true, if_false, Option.map_eq_none'] at h
      have hp2 : k.isPrefixOf (c :: t) = false := Bool.eq_false_iff.mpr hp
      simp only [replaceOccurrences, hp2, Bool.false_eq_true, if_false, ih h]

/-- When `Index` finds the first instance at `j`, the instance lies inside the
string and the scan copies the `j` bytes before it, writes `v` and goes on behind
the instance. -/
theorem replaceOccurrences_of_index_some (k v : GoString) (hk : k ≠ []) :
    ∀ (t : GoString) (j : Nat), Index t k = some j →
      j + k.length ≤ t.length ∧
      replaceOccurrences k v 0 t
        = t.take j ++ v ++ replaceOccurrences k v 0 (t.drop (j + k.length)) := by
  intro t
  induction t with
  | nil =>
    intro j h
    simp [Index, hk] at h
  | cons c t ih =>
    intro j h
    unfold Index at h
    by_cases hp : HasPrefix (c :: t) k = true
    · simp only [hp, if_true, Option.some.injEq] at h
      subst h
      have hlen := hasPrefix_length hp
      have hp2 : k.isPrefixOf (c :: t) = true := by
        simpa [HasPrefix] using hp
      have hpos : 0 < k.length := List.length_pos.mpr hk
      refine ⟨by simpa using hlen, ?_⟩
      simp only [replaceOccurrences, hp2, if_true, List.take_zero, List.nil_append,
        Nat.zero_add]
      rw [replaceOccurrences_skip k v (k.length - 1) t]
      have hd : (c :: t).drop k.length = t.drop (k.length - 1) := by
        obtain ⟨n, hn⟩ : ∃ n, k.length = n + 1 := ⟨k.length - 1, by omega⟩
        simp [hn]
      rw [hd]
    · simp only [hp, Bool.false_eq_true, if_false, Option.map_eq_some'] at h
      obtain ⟨j0, hj0, rfl⟩ := h
      have hp2 : k.isPrefixOf (c :: t) = false := Bool.eq_false_iff.mpr hp
      obtain ⟨hle, heq⟩ := ih j0 hj0
      refine ⟨by simp only [List.length_cons]; omega, ?_⟩
      simp only [replaceOccurrences, hp2, Bool.false_eq_true, if_false, heq]
      have hd : (c :: t).drop (j0 + 1 + k.length) = t.drop (j0 + k.length) := by
        have : j0 + 1 + k.length = (j0 + k.length) + 1 := by omega
        rw [this, List.drop_succ_cons]
      rw [hd]
      simp

theorem count_loop_acc (substr : GoString) :
    ∀ (fuel : Nat) (t : GoString) (n : Nat),
      Count.loop substr fuel t n = Count.loop substr fuel t 0 + n := by
  intro fuel
  induction fuel with
  | zero => intro t n; simp [Count.loop]
  | succ fuel ih =>
    intro t n
    unfold Count.loop
    cases hI : Index t substr with
    | none => simp
    | some j =>
      simp only
      rw [ih _ (n + 1), ih _ (0 + 1)]
      omega

/-- The replacement loop, run for as many rounds as `Count` finds instances in the
rest of the string, never panics and writes the left-to-right scan of the rest. -/
theorem replace_loop_eq (s old new : GoString) (hk : old ≠ []) :
    ∀ (fuel start i : Nat) (b : GoString), start ≤ s.length →
      (s.drop start).length < fuel →
      Replace.loop s old new (Count.loop old fuel (s.drop start) 0) i start b
        = some (b ++ replaceOccurrences old new 0 (s.drop start)) := by
  have hlen : old.length ≠ 0 := fun h => hk (List.length_eq_zero.mp h)
  intro fuel
  induction fuel with
  | zero => intro start i b _ h; omega
  | succ fuel ih =>
    intro start i b hstart hfuel
    unfold Count.loop
    cases hI : Index (s.drop start) old with
    | none =>
      simp only
      unfold Replace.loop
      rw [sliceFrom_of_le s start hstart, replaceOccurrences_of_index_none old new _ hI]
      rfl
    | some j =>
      simp only
      obtain ⟨hle, heq⟩ := replaceOccurrences_of_index_some old new hk _ j hI
      rw [count_loop_acc old fuel _ (0 + 1)]
      have hdl : (s.drop start).length = s.length - start := List.length_drop start s
      have hstart2 : start + j + old.length ≤ s.length := by omega
      have hdrop : s.drop (start + j + old.length) = (s.drop start).drop (j + old.length) := by
        rw [List.drop_drop]
        congr 1
        omega
      have hfuel2 : (s.drop (start + j + old.length)).length < fuel := by
        have : (s.drop (start + j + old.length)).length = s.length - (start + j + old.length) :=
          List.length_drop _ s
        have hpos : 0 < old.length := Nat.pos_of_ne_zero hlen
        omega
      have hrec := ih (start + j + old.length) (i + 1) (b ++ (s.drop start).take j ++ new)
        hstart2 hfuel2
      rw [hdrop] at hrec
      show Replace.loop s old new (Count.loop old fuel ((s.drop start).drop (j + old.length)) 0 + 1)
        i start b = _
      unfold Replace.loop
      simp only [hlen, if_false, sliceFrom_of_le s start hstart, Option.some_bind, hI,
        Option.map_some', slice_of_le s start j (by omega)]
      rw [hrec, heq]
      simp

/-- For a non-empty `old`, `ReplaceAll` never panics and returns the left-to-right
scan of `s`. -/
theorem replaceAll_eq_scan (s old new : GoString) (hk : old ≠ []) :
    ReplaceAll s old new = some (replaceOccurrences old new 0 s) := by
  have hlen : old.length ≠ 0 := fun h => hk (List.length_eq_zero.mp h)
  have hloop := replace_loop_eq s old new hk (s.length + 1) 0 0 [] (Nat.zero_le _)
    (by simp)
  simp only [List.drop_zero, List.nil_append] at hloop
  unfold ReplaceAll Replace
  by_cases hon : old = new
  · subst hon
    simp only [true_or, if_true, Option.some.injEq]
    -- replacing every instance of `old` by `old` leaves the string unchanged
    have key : ∀ (n : Nat) (t : GoString), t.length ≤ n → replaceOccurrences old old 0 t = t := by
      intro n
      induction n with
      | zero =>
        intro t ht
        have : t = [] := List.length_eq_zero.mp (by omega)
        subst this
        rfl
      | succ n ih =>
        intro t ht
        cases hI : Index t old with
        | none => exact replaceOccurrences_of_index_none old old t hI
        | some j =>
          obtain ⟨hle, heq⟩ := replaceOccurrences_of_index_some old old hk t j hI
          have hpos : 0 < old.length := Nat.pos_of_ne_zero hlen
          have hshort : (t.drop (j + old.length)).length ≤ n := by
            rw [List.length_drop]
            omega
          rw [heq, ih _ hshort]
          have hfound : HasPrefix (t.drop j) old = true := by
            clear heq hshort ih ht hle
            induction t generalizing j with
            | nil => simp [Index, hk] at hI
            | cons c t iht =>
              unfold Index at hI
              by_cases hp : HasPrefix (c :: t) old = true
              · simp only [hp, if_true, Option.some.injEq] at hI
                subst hI
                simpa using hp
              · simp only [hp, Bool.false_eq_true, if_false, Option.map_eq_some'] at hI
                obtain ⟨j0, hj0, rfl⟩ := hI
                simpa using iht j0 hj0
          have happ := hasPrefix_eq_append hfound
          rw [List.drop_drop] at happ
          calc t.take j ++ old ++ t.drop (j + old.length)
              = t.take j ++ (old ++ t.drop (j + old.length)) := by simp
            _ = t.take j ++ t.drop j := by rw [← happ]
            _ = t := List.take_append_drop j t
    exact (key s.length s (Nat.le_refl _)).symm
  · have hcount : Count s old = Count.loop old (s.length + 1) s 0 := by
      simp [Count, hlen]
    simp only [hon, false_or, show ¬ ((-1 : Int) = 0) by decide, if_false, hcount,
      show ((-1 : Int) < 0) by decide, true_or, if_true]
    by_cases hm : Count.loop old (s.length + 1) s 0 = 0
    · rw [hm] at hloop
      simp only [hm, if_true]
      unfold Replace.loop at hloop
      rw [sliceFrom_of_le s 0 (Nat.zero_le _)] at hloop
      simpa using hloop
    · simp only [hm, if_false]
      exact hloop

theorem index_none_of_absent (k : GoString) (hk : k ≠ []) :
    ∀ t : GoString, ¬ k <:+: t → Index t k = none := by
  intro t
  induction t with
  | nil => intro _; simp [Index, hk]
  | cons c t ih =>
    intro h
    unfold Index
    by_cases hp : HasPrefix (c :: t) k = true
    · exfalso
      apply h
      have hpre : k <+: c :: t := by
        simpa [HasPrefix] using hp
      exact hpre.isInfix
    · have hnot : ¬ k <:+: t := fun hi => h (hi.trans (List.suffix_cons c t).isInfix)
      simp [hp, ih hnot]

theorem body_of_absent (e : GoString × GoString) (s : GoString)
    (h : e.1 ≠ [] → ¬ e.1 <:+: s) : replaceWithMap.body e s = some s := by
  unfold replaceWithMap.body
  by_cases hk : e.1 = []
  · simp [hk]
  · simp only [ne_eq, hk, not_false_eq_true, if_true]
    rw [replaceAll_eq_scan s e.1 e.2 hk,
      replaceOccurrences_of_index_none e.1 e.2 s (index_none_of_absent e.1 hk s (h hk))]

theorem foldl_append_singleton {α β : Type} (f : α → β) (l : List α) (init : List β) :
    l.foldl (fun acc c => acc ++ [f c]) init = init ++ l.map f := by
  induction l generalizing init with
  | nil => simp
  | cons a l ih => simp [ih]

/-! ## Lemmas on templates -/

theorem replaceOccurrences_cons (k v : GoString) (c : UInt8) (t : GoString) :
    replaceOccurrences k v 0 (c :: t)
      = if k.isPrefixOf (c :: t) then v ++ replaceOccurrences k v (k.length - 1) t
        else c :: replaceOccurrences k v 0 t := by
  simp [replaceOccurrences]

/-- The scan for a key that starts with the marker copies text without the marker. -/
theorem scan_text (k v : GoString) (o : UInt8) (hk : k.head? = some o) (w : GoString)
    (hw : o ∉ w) (rest : GoString) :
    replaceOccurrences k v 0 (w ++ rest) = w ++ replaceOccurrences k v 0 rest := by
  induction w with
  | nil => rfl
  | cons c w ih =>
    have hc : ¬ o = c := fun h => hw (by simp [h])
    have hw2 : o ∉ w := fun h => hw (by simp [h])
    have hnp : k.isPrefixOf (c :: (w ++ rest)) = false := by
      cases k with
      | nil => simp at hk
      | cons a k₀ =>
        have ha : a = o := by simpa using hk
        subst ha
        simp [List.isPrefixOf, hc]
    rw [List.cons_append, replaceOccurrences_cons, hnp, ih hw2]
    simp

/-- The scan replaces the key it meets at the head of the string and goes on behind
it. -/
theorem scan_key_hit (k v : GoString) (hk : k ≠ []) (rest : GoString) :
    replaceOccurrences k v 0 (k ++ rest) = v ++ replaceOccurrences k v 0 rest := by
  cases k with
  | nil => exact absurd rfl hk
  | cons a k₀ =>
    have hp : (a :: k₀).isPrefixOf (a :: (k₀ ++ rest)) = true := by simp
    rw [List.cons_append, replaceOccurrences_cons, hp,
      replaceOccurrences_skip (a :: k₀) v _ (k₀ ++ rest)]
    simp

/-- The scan copies another key: it does not match at the marker, and the rest of
that key holds no marker. -/
theorem scan_key_miss (k v : GoString) (o : UInt8) (hk : k.head? = some o) (r : GoString)
    (hr : r.head? = some o) (hrt : o ∉ r.tail) (rest : GoString)
    (hmiss : ¬ k <+: r ++ rest) :
    replaceOccurrences k v 0 (r ++ rest) = r ++ replaceOccurrences k v 0 rest := by
  cases r with
  | nil => simp at hr
  | cons a r₀ =>
    have hnp : k.isPrefixOf (a :: (r₀ ++ rest)) = false := by
      apply Bool.eq_false_iff.mpr
      intro h
      apply hmiss
      simpa using h
    rw [List.cons_append, replaceOccurrences_cons, hnp, scan_text k v o hk r₀ hrt rest]
    simp

/-- On a well-formed template the scan for a key of the map gives the value to the
placeholders written as that key and leaves every other piece as it is. -/
theorem scan_render (o : UInt8) (m : GoMap)
    (hkeys : ∀ e ∈ m, e.1 ≠ [] → e.1.head? = some o ∧ o ∉ e.1.tail)
    (hpf : ∀ e₁ ∈ m, ∀ e₂ ∈ m, e₁.1 ≠ [] → e₁.1 <+: e₂.1 → e₁.1 = e₂.1)
    (e : GoString × GoString) (he : e ∈ m) (hne : e.1 ≠ []) :
    ∀ ps : List Piece, (∀ p ∈ ps, Piece.WF o m p) →
      replaceOccurrences e.1 e.2 0 (render ps) = render (ps.map (Piece.subst e.1 e.2)) := by
  intro ps
  induction ps with
  | nil => intro _; rfl
  | cons p ps ih =>
    intro h
    have hp := h p (by simp)
    have ih₂ := ih (fun q hq => h q (List.mem_cons_of_mem _ hq))
    cases p with
    | text w =>
      have hw : o ∉ w := hp
      simp only [render, List.map, Piece.subst]
      rw [scan_text e.1 e.2 o (hkeys e he hne).1 w hw, ih₂]
    | key r =>
      obtain ⟨hrne, e₂, he₂, hr⟩ := hp
      subst hr
      by_cases hrk : e₂.1 = e.1
      · simp only [render, List.map, Piece.subst, hrk, if_true]
        rw [scan_key_hit e.1 e.2 hne, ih₂]
      · simp only [render, List.map, Piece.subst, hrk, if_false]
        have hmiss : ¬ e.1 <+: e₂.1 ++ render ps := by
          intro hpre
          have hself : e₂.1 <+: e₂.1 ++ render ps := List.prefix_append _ _
          rcases Nat.le_total e.1.length e₂.1.length with hle | hle
          · exact hrk (hpf e he e₂ he₂ hne ( List.prefix_of_prefix_length_le hpre hself hle)).symm
          · exact hrk (hpf e₂ he₂ e he hrne ( List.prefix_of_prefix_length_le hself hpre hle))
        rw [scan_key_miss e.1 e.2 o (hkeys e he hne).1 e₂.1 (hkeys e₂ he₂ hrne).1
          (hkeys e₂ he₂ hrne).2 (render ps) hmiss, ih₂]

/-- One round of the loop on a well-formed template never panics and spells the
template with the entry filled in. -/
theorem body_render (o : UInt8) (m : GoMap)
    (hkeys : ∀ e ∈ m, e.1 ≠ [] → e.1.head? = some o ∧ o ∉ e.1.tail)
    (hpf : ∀ e₁ ∈ m, ∀ e₂ ∈ m, e₁.1 ≠ [] → e₁.1 <+: e₂.1 → e₁.1 = e₂.1)
    (e : GoString × GoString) (he : e ∈ m) (ps : List Piece)
    (hps : ∀ p ∈ ps, Piece.WF o m p) :
    replaceWithMap.body e (render ps) = some (render (substEntry ps e)) := by
  unfold replaceWithMap.body substEntry
  by_cases hne : e.1 = []
  · simp [hne]
  · simp only [ne_eq, hne, not_false_eq_true, if_true]
    rw [replaceAll_eq_scan (render ps) e.1 e.2 hne, scan_render o m hkeys hpf e he hne ps hps]

/-- Filling in an entry of the map keeps a template well formed. -/
theorem wf_substEntry (o : UInt8) (m : GoMap) (hvals : ∀ e ∈ m, e.1 ≠ [] → o ∉ e.2)
    (e : GoString × GoString) (he : e ∈ m) (ps : List Piece)
    (hps : ∀ p ∈ ps, Piece.WF o m p) : ∀ p ∈ substEntry ps e, Piece.WF o m p := by
  unfold substEntry
  by_cases hne : e.1 = []
  · simpa [hne] using hps
  · simp only [ne_eq, hne, not_false_eq_true, if_true, List.mem_map]
    rintro p ⟨q, hq, rfl⟩
    have hwf := hps q hq
    cases q with
    | text w => exact hwf
    | key r =>
      by_cases hr : r = e.1
      · simp only [Piece.subst, hr, if_true]
        exact hvals e he hne
      · simp only [Piece.subst, hr, if_false]
        exact hwf

/-- The whole loop on a well-formed template, for entries of the map in any order and
number: no panic, and the result spells the template with the entries filled in one
after the other. -/
theorem replaceWithMap_render (o : UInt8) (m : GoMap)
    (hkeys : ∀ e ∈ m, e.1 ≠ [] → e.1.head? = some o ∧ o ∉ e.1.tail)
    (hvals : ∀ e ∈ m, e.1 ≠ [] → o ∉ e.2)
    (hpf : ∀ e₁ ∈ m, ∀ e₂ ∈ m, e₁.1 ≠ [] → e₁.1 <+: e₂.1 → e₁.1 = e₂.1) :
    ∀ (l : GoMap), (∀ e ∈ l, e ∈ m) → ∀ ps : List Piece, (∀ p ∈ ps, Piece.WF o m p) →
      replaceWithMap (render ps) l = some (render (l.foldl substEntry ps)) := by
  intro l
  induction l with
  | nil => intro _ ps _; rfl
  | cons e l ih =>
    intro hl ps hps
    have he : e ∈ m := hl e (by simp)
    simp only [replaceWithMap, body_render o m hkeys hpf e he ps hps, Option.some_bind,
      List.foldl_cons]
    exact ih (fun e₂ h₂ => hl e₂ (List.mem_cons_of_mem _ h₂)) (substEntry ps e)
      (wf_substEntry o m hvals e he ps hps)

/-- Filling in two entries with different keys gives the same pieces in both
orders. -/
theorem substEntry_comm (e₁ e₂ : GoString × GoString) (h : e₁.1 = e₂.1 → e₁ = e₂)
    (ps : List Piece) :
    substEntry (substEntry ps e₁) e₂ = substEntry (substEntry ps e₂) e₁ := by
  by_cases heq : e₁ = e₂
  · subst heq; rfl
  · have hk : e₁.1 ≠ e₂.1 := fun hk => heq (h hk)
    unfold substEntry
    by_cases h₁ : e₁.1 = [] <;> by_cases h₂ : e₂.1 = [] <;>
      simp only [ne_eq, h₁, h₂, not_false_eq_true, not_true_eq_false, if_true, if_false]
    simp only [List.map_map]
    apply List.map_congr_left
    intro p _
    cases p with
    | text w => rfl
    | key r =>
      by_cases hr₁ : r = e₁.1
      · have hr₂ : ¬ r = e₂.1 := fun hr₂ => hk (hr₁.symm.trans hr₂)
        simp [Piece.subst, hr₁, hk]
      · by_cases hr₂ : r = e₂.1
        · have hk₂ : ¬ e₂.1 = e₁.1 := fun hk₂ => hk hk₂.symm
          simp [Piece.subst, hr₂, hk₂]
        · simp [Piece.subst, hr₁, hr₂]

/-- A string in which every marker starts a key of the map is a well-formed
template. -/
theorem exists_pieces (o : UInt8) (m : GoMap) :
    ∀ (n : Nat) (s : GoString), s.length ≤ n →
      (∀ t, t <:+ s → t.head? = some o → ∃ e ∈ m, e.1 ≠ [] ∧ e.1 <+: t) →
      ∃ ps : List Piece, render ps = s ∧ ∀ p ∈ ps, Piece.WF o m p := by
  intro n
  induction n with
  | zero =>
    intro s hs _
    have : s = [] := List.length_eq_zero.mp (by omega)
    subst this
    exact ⟨[], rfl, by simp⟩
  | succ n ih =>
    intro s hlen hs
    cases s with
    | nil => exact ⟨[], rfl, by simp⟩
    | cons c s₀ =>
      by_cases hc : c = o
      · obtain ⟨e, he, hne, rest, hrest⟩ := hs (c :: s₀) (List.suffix_refl _) (by simp [hc])
        have hpos : 0 < e.1.length := List.length_pos.mpr hne
        have hl : e.1.length + rest.length = (c :: s₀).length := by
          rw [← hrest, List.length_append]
        have hsuf : rest <:+ c :: s₀ := ⟨e.1, hrest⟩
        obtain ⟨ps, hps, hwf⟩ := ih rest (by simp only [List.length_cons] at hl hlen; omega)
          (fun t ht => hs t (ht.trans hsuf))
        refine ⟨Piece.key e.1 :: ps, by simp [render, hps, hrest], ?_⟩
        intro p hp
        rcases List.mem_cons.mp hp with rfl | hp
        · exact ⟨hne, e, he, rfl⟩
        · exact hwf p hp
      · obtain ⟨ps, hps, hwf⟩ := ih s₀ (by simp only [List.length_cons] at hlen; omega)
          (fun t ht => hs t (ht.trans (List.suffix_cons c s₀)))
        refine ⟨Piece.text [c] :: ps, by simp [render, hps], ?_⟩
        intro p hp
        rcases List.mem_cons.mp hp with rfl | hp
        · show o ∉ [c]
          simpa using fun h : o = c => hc h.symm
        · exact hwf p hp

/-! ## The claims -/

/-- C1: for every string `s` and every map with exactly one entry `(k, v)` whose key
is non-empty, `replaceWithMap(s, m)` is `strings.ReplaceAll(s, k, v)`, and that is
`s` with every non-overlapping occurrence of `k`, taken left to right, replaced by
`v`; no panic occurs on the way. -/
theorem replaceWithMap_single_entry (s k v : GoString) (hk : k ≠ []) :
    replaceWithMap s [(k, v)] = ReplaceAll s k v ∧
      replaceWithMap s [(k, v)] = some (replaceOccurrences k v 0 s) := by
  have hbody : replaceWithMap s [(k, v)] = ReplaceAll s k v := by
    simp only [replaceWithMap, replaceWithMap.body, ne_eq, hk, not_false_eq_true, if_true]
    cases ReplaceAll s k v <;> rfl
  exact ⟨hbody, hbody.trans (replaceAll_eq_scan s k v hk)⟩

/-- C1, the scenario of the design document: the subdirectory pattern
`vol-$\x7bpvc.metadata.name\x7d` with the name `foo` gives `vol-foo`. -/
theorem replaceWithMap_single_entry_witness :
    pvcNameMetadata ≠ [] ∧
      replaceWithMap (lit "vol-$\x7bpvc.metadata.name\x7d") [(pvcNameMetadata, lit "foo")]
        = some (lit "vol-foo") :=
  ⟨by decide,
    (replaceWithMap_single_entry (lit "vol-$\x7bpvc.metadata.name\x7d") pvcNameMetadata
      (lit "foo") (by decide)).2.trans (by decide)⟩

/-- C2: `NewDriver` does not copy `DefaultOnDeletePolicy`: the field
`defaultOnDeletePolicy` of the driver it returns is the empty string for every
options value, also for the options that ask for `retain`. -/
theorem NewDriver_defaultOnDeletePolicy_unset (driverVersion : GoString) (o : DriverOptions) :
    (NewDriver driverVersion o).defaultOnDeletePolicy = lit "" ∧
      (NewDriver driverVersion { o with DefaultOnDeletePolicy := lit "retain" }).defaultOnDeletePolicy
        ≠ ({ o with DefaultOnDeletePolicy := lit "retain" } : DriverOptions).DefaultOnDeletePolicy := by
  refine ⟨rfl, ?_⟩
  show ([] : GoString) ≠ lit "retain"
  decide

/-- C3: after `AddControllerServiceCapabilities(cl)` the controller capability list
has `len(cl)` entries, the `i`-th one is the capability built for `cl[i]` and names
`cl[i]`, whatever the list held before; the same for `AddNodeServiceCapabilities`;
for the empty list the stored list is empty. -/
theorem AddServiceCapabilities_stores (n : Driver)
    (cl : List csi.ControllerServiceCapability_RPC_Type)
    (nl : List csi.NodeServiceCapability_RPC_Type) :
    ((n.AddControllerServiceCapabilities cl).cscap.length = cl.length ∧
      (∀ i : Nat, (n.AddControllerServiceCapabilities cl).cscap[i]?
        = cl[i]?.map NewControllerServiceCapability) ∧
      (∀ i : Nat, ((n.AddControllerServiceCapabilities cl).cscap[i]?).map
        (fun e => e.Type_.Rpc.Type_) = cl[i]?)) ∧
    ((n.AddNodeServiceCapabilities nl).nscap.length = nl.length ∧
      (∀ i : Nat, (n.AddNodeServiceCapabilities nl).nscap[i]?
        = nl[i]?.map NewNodeServiceCapability) ∧
      (∀ i : Nat, ((n.AddNodeServiceCapabilities nl).nscap[i]?).map
        (fun e => e.Type_.Rpc.Type_) = nl[i]?)) ∧
    (n.AddControllerServiceCapabilities []).cscap = [] ∧
    (n.AddNodeServiceCapabilities []).nscap = [] := by
  have hc : (n.AddControllerServiceCapabilities cl).cscap
      = cl.map NewControllerServiceCapability := by
    simp [Driver.AddControllerServiceCapabilities, foldl_append_singleton]
  have hn : (n.AddNodeServiceCapabilities nl).nscap = nl.map NewNodeServiceCapability := by
    simp [Driver.AddNodeServiceCapabilities, foldl_append_singleton]
  refine ⟨⟨?_, ?_, ?_⟩, ⟨?_, ?_, ?_⟩, rfl, rfl⟩
  · rw [hc, List.length_map]
  · intro i; rw [hc, List.getElem?_map]
  · intro i
    rw [hc, List.getElem?_map]
    cases cl[i]? <;> rfl
  · rw [hn, List.length_map]
  · intro i; rw [hn, List.getElem?_map]
  · intro i
    rw [hn, List.getElem?_map]
    cases nl[i]? <;> rfl

/-- C4: for every options value the controller capability list of `NewDriver` is the
same list of four pairwise distinct entries, naming in this order
CREATE_DELETE_VOLUME, SINGLE_NODE_MULTI_WRITER, CLONE_VOLUME and
CREATE_DELETE_SNAPSHOT. -/
theorem NewDriver_cscap (driverVersion : GoString) (o : DriverOptions) :
    (NewDriver driverVersion o).cscap
      = [ NewControllerServiceCapability csi.ControllerServiceCapability_RPC_CREATE_DELETE_VOLUME,
          NewControllerServiceCapability csi.ControllerServiceCapability_RPC_SINGLE_NODE_MULTI_WRITER,
          NewControllerServiceCapability csi.ControllerServiceCapability_RPC_CLONE_VOLUME,
          NewControllerServiceCapability csi.ControllerServiceCapability_RPC_CREATE_DELETE_SNAPSHOT ] ∧
    (NewDriver driverVersion o).cscap.length = 4 ∧
    (NewDriver driverVersion o).cscap.Nodup ∧
    (NewDriver driverVersion o).cscap.map (fun e => e.Type_.Rpc.Type_)
      = [ csi.ControllerServiceCapability_RPC_CREATE_DELETE_VOLUME,
          csi.ControllerServiceCapability_RPC_SINGLE_NODE_MULTI_WRITER,
          csi.ControllerServiceCapability_RPC_CLONE_VOLUME,
          csi.ControllerServiceCapability_RPC_CREATE_DELETE_SNAPSHOT ] := by
  have h : (NewDriver driverVersion o).cscap
      = [ NewControllerServiceCapability csi.ControllerServiceCapability_RPC_CREATE_DELETE_VOLUME,
          NewControllerServiceCapability csi.ControllerServiceCapability_RPC_SINGLE_NODE_MULTI_WRITER,
          NewControllerServiceCapability csi.ControllerServiceCapability_RPC_CLONE_VOLUME,
          NewControllerServiceCapability csi.ControllerServiceCapability_RPC_CREATE_DELETE_SNAPSHOT ] :=
    rfl
  rw [h]
  exact ⟨rfl, rfl, by decide, rfl⟩

/-- C5: whatever the two functions of the mount collaborator answer,
`IsCorruptedDir(dir)` is true exactly when the path-exists probe returns an error and
`IsCorruptedMnt` classifies that error as a corrupted mount; when the probe returns
no error, with the path reported present or absent, the result is false. -/
theorem IsCorruptedDir_iff {ε : Type} (PathExists : GoString → Bool × Option ε)
    (IsCorruptedMnt : Option ε → Bool) (dir : GoString) :
    (IsCorruptedDir PathExists IsCorruptedMnt dir = true ↔
      ∃ e, (PathExists dir).2 = some e ∧ IsCorruptedMnt (some e) = true) ∧
    (∀ found : Bool, PathExists dir = (found, none) →
      IsCorruptedDir PathExists IsCorruptedMnt dir = false) := by
  constructor
  · unfold IsCorruptedDir
    cases h : (PathExists dir).2 with
    | none => simp
    | some e => simp
  · intro found h
    simp [IsCorruptedDir, h]

/-- C5 at a path that is not there: even a classifier that calls every error a
corrupted mount leaves the result false. -/
theorem IsCorruptedDir_iff_witness :
    sampleProbe (lit "/mnt/missing") = (false, none) ∧
      IsCorruptedDir sampleProbe (fun _ => true) (lit "/mnt/missing") = false :=
  ⟨by decide,
    (IsCorruptedDir_iff sampleProbe (fun _ => true) (lit "/mnt/missing")).2 false (by decide)⟩

/-- C6, refuted: `os.Stat` of the path `/mnt/denied` fails with the errno EACCES,
which is none of ESTALE, ENOTCONN, EIO and EHOSTDOWN, and `IsCorruptedDir` returns
true there, not false. -/
theorem IsCorruptedDir_permissionDenied_is_true :
    sampleStat (lit "/mnt/denied")
        = some (GoError.PathError (lit "stat") (lit "/mnt/denied") syscall.EACCES) ∧
      syscall.EACCES ∉ [syscall.ESTALE, syscall.ENOTCONN, syscall.EIO, syscall.EHOSTDOWN] ∧
      IsCorruptedDir (mount.PathExists sampleStat) mount.IsCorruptedMnt (lit "/mnt/denied")
        = true ∧
      IsCorruptedDir (mount.PathExists sampleStat) mount.IsCorruptedMnt (lit "/mnt/denied")
        ≠ false := by
  refine ⟨by decide, by decide, by decide, by decide⟩

/-- C6, amended: for every path whose stat-class probe fails with a
permission-denied error, the path-exists probe returns that error and
`IsCorruptedDir` returns true: the mount collaborator counts a permission error as
a corrupted mount. -/
theorem IsCorruptedDir_of_permissionDenied (osStat : GoString → Option GoError)
    (dir op path : GoString)
    (h : osStat dir = some (GoError.PathError op path syscall.EACCES)) :
    mount.PathExists osStat dir = (true, some (GoError.PathError op path syscall.EACCES)) ∧
      IsCorruptedDir (mount.PathExists osStat) mount.IsCorruptedMnt dir = true := by
  have hp : mount.PathExists osStat dir
      = (true, some (GoError.PathError op path syscall.EACCES)) := by
    unfold mount.PathExists
    rw [h]
    rfl
  refine ⟨hp, ?_⟩
  unfold IsCorruptedDir
  rw [hp]
  rfl

/-- C6, amended, at a `stat` that fails with EACCES for every path. -/
theorem IsCorruptedDir_of_permissionDenied_witness :
    IsCorruptedDir
        (mount.PathExists (fun p => some (GoError.PathError (lit "stat") p syscall.EACCES)))
        mount.IsCorruptedMnt (lit "/data") = true :=
  (IsCorruptedDir_of_permissionDenied
    (fun p => some (GoError.PathError (lit "stat") p syscall.EACCES))
    (lit "/data") (lit "stat") (lit "/data") rfl).2

/-- C8, refuted: the map with the entries `a ↦ b` and `b ↦ c` turns the string `a`
into `c` when the entry for `a` is visited first and into `b` when it is visited
last. -/
theorem replaceWithMap_order_matters :
    ([(lit "a", lit "b"), (lit "b", lit "c")] : GoMap).Perm
        [(lit "b", lit "c"), (lit "a", lit "b")] ∧
      (([(lit "a", lit "b"), (lit "b", lit "c")] : GoMap).map Prod.fst).Nodup ∧
      replaceWithMap (lit "a") [(lit "a", lit "b"), (lit "b", lit "c")] = some (lit "c") ∧
      replaceWithMap (lit "a") [(lit "b", lit "c"), (lit "a", lit "b")] = some (lit "b") ∧
      replaceWithMap (lit "a") [(lit "a", lit "b"), (lit "b", lit "c")]
        ≠ replaceWithMap (lit "a") [(lit "b", lit "c"), (lit "a", lit "b")] :=
  ⟨List.Perm.swap _ _ _, by decide, by decide, by decide, by decide⟩

/-- C8, amended: let `m₁` and `m₂` be two orders of the entries of one map, and `o`
a marker byte (`$` for the placeholders of the driver) such that every non-empty key
starts with `o` and holds no other `o`, no value of a non-empty key holds `o`, no
non-empty key is a prefix of another key, and every `o` in `s` starts a key of the
map. Then `replaceWithMap` returns the same string for both orders, without a
panic. -/
theorem replaceWithMap_perm_of_marked (o : UInt8) (s : GoString) (m₁ m₂ : GoMap)
    (hp : m₁.Perm m₂)
    (hmap : (m₁.map Prod.fst).Nodup)
    (hkeys : ∀ e ∈ m₁, e.1 ≠ [] → e.1.head? = some o ∧ o ∉ e.1.tail)
    (hvals : ∀ e ∈ m₁, e.1 ≠ [] → o ∉ e.2)
    (hpf : ∀ e₁ ∈ m₁, ∀ e₂ ∈ m₁, e₁.1 ≠ [] → e₁.1 <+: e₂.1 → e₁.1 = e₂.1)
    (hs : ∀ t ∈ s.tails, t.head? = some o → ∃ e ∈ m₁, e.1 ≠ [] ∧ e.1 <+: t) :
    ∃ r : GoString, replaceWithMap s m₁ = some r ∧ replaceWithMap s m₂ = some r := by
  obtain ⟨ps, hps, hwf⟩ := exists_pieces o m₁ s.length s (Nat.le_refl _)
    (fun t ht => hs t ((List.mem_tails t s).mpr ht))
  have h₁ := replaceWithMap_render o m₁ hkeys hvals hpf m₁ (fun e he => he) ps hwf
  have h₂ := replaceWithMap_render o m₁ hkeys hvals hpf m₂
    (fun e he => hp.mem_iff.mpr he) ps hwf
  have hfold : m₁.foldl substEntry ps = m₂.foldl substEntry ps :=
    List.Perm.foldl_eq' hp
      (fun x hx y hy z =>
        substEntry_comm x y (fun hk => List.inj_on_of_nodup_map hmap hx hy hk) z) ps
  rw [hps] at h₁ h₂
  exact ⟨render (m₁.foldl substEntry ps), h₁, by rw [h₂, hfold]⟩

/-- C8, amended, at the three placeholders of the driver, `$` as the marker and a
PVC named `data`: both orders of the map expand the template to `ns/data-pv1`. -/
theorem replaceWithMap_perm_of_marked_witness :
    (∃ r : GoString,
      replaceWithMap
          (lit "$\x7bpvc.metadata.namespace\x7d/$\x7bpvc.metadata.name\x7d-$\x7bpv.metadata.name\x7d")
          [(pvcNameMetadata, lit "data"), (pvcNamespaceMetadata, lit "ns"),
            (pvNameMetadata, lit "pv1")] = some r ∧
      replaceWithMap
          (lit "$\x7bpvc.metadata.namespace\x7d/$\x7bpvc.metadata.name\x7d-$\x7bpv.metadata.name\x7d")
          [(pvNameMetadata, lit "pv1"), (pvcNamespaceMetadata, lit "ns"),
            (pvcNameMetadata, lit "data")] = some r) ∧
      replaceWithMap
          (lit "$\x7bpvc.metadata.namespace\x7d/$\x7bpvc.metadata.name\x7d-$\x7bpv.metadata.name\x7d")
          [(pvcNameMetadata, lit "data"), (pvcNamespaceMetadata, lit "ns"),
            (pvNameMetadata, lit "pv1")] = some (lit "ns/data-pv1") :=
  ⟨replaceWithMap_perm_of_marked 36
    (lit "$\x7bpvc.metadata.namespace\x7d/$\x7bpvc.metadata.name\x7d-$\x7bpv.metadata.name\x7d")
    [(pvcNameMetadata, lit "data"), (pvcNamespaceMetadata, lit "ns"), (pvNameMetadata, lit "pv1")]
    [(pvNameMetadata, lit "pv1"), (pvcNamespaceMetadata, lit "ns"), (pvcNameMetadata, lit "data")]
    (by decide) (by decide) (by decide) (by decide) (by decide) (by decide),
    by decide⟩

/-- C9: when no non-empty key of `m` occurs as a substring of `s`,
`replaceWithMap(s, m)` returns `s`; an entry with the empty key is passed over. -/
theorem replaceWithMap_no_occurrence (s : GoString) (m : GoMap)
    (h : ∀ e ∈ m, e.1 ≠ [] → ¬ e.1 <:+: s) : replaceWithMap s m = some s := by
  induction m with
  | nil => rfl
  | cons e m ih =>
    have he := body_of_absent e s (h e (by simp))
    simp only [replaceWithMap, he, Option.some_bind]
    exact ih (fun e₂ h₂ => h e₂ (List.mem_cons_of_mem _ h₂))

/-- C9 at a map with an empty key and a placeholder that the string does not
contain. -/
theorem replaceWithMap_no_occurrence_witness :
    replaceWithMap (lit "vol-1") [(lit "", lit "x"), (pvNameMetadata, lit "foo")]
      = some (lit "vol-1") :=
  replaceWithMap_no_occurrence (lit "vol-1") [(lit "", lit "x"), (pvNameMetadata, lit "foo")]
    (by decide)

/-- C10, refuted: the third entry of the node capability list of `NewDriver` names
the UNKNOWN placeholder. -/
theorem NewDriver_nscap_has_unknown :
    ((NewDriver (lit "v0") ⟨[], [], [], 0, [], []⟩).nscap[2]?).map (fun e => e.Type_.Rpc.Type_)
        = some csi.NodeServiceCapability_RPC_UNKNOWN ∧
      ¬ (∀ e ∈ (NewDriver (lit "v0") ⟨[], [], [], 0, [], []⟩).nscap,
          (e.Type_.Rpc.Type_ = csi.NodeServiceCapability_RPC_GET_VOLUME_STATS ∨
            e.Type_.Rpc.Type_ = csi.NodeServiceCapability_RPC_SINGLE_NODE_MULTI_WRITER) ∧
          e.Type_.Rpc.Type_ ≠ csi.NodeServiceCapability_RPC_UNKNOWN) := by
  constructor
  · rfl
  · decide

/-- C10, amended: for every options value the node capability list of `NewDriver`
has exactly three entries, naming in this order GET_VOLUME_STATS,
SINGLE_NODE_MULTI_WRITER and UNKNOWN. -/
theorem NewDriver_nscap (driverVersion : GoString) (o : DriverOptions) :
    (NewDriver driverVersion o).nscap
      = [ NewNodeServiceCapability csi.NodeServiceCapability_RPC_GET_VOLUME_STATS,
          NewNodeServiceCapability csi.NodeServiceCapability_RPC_SINGLE_NODE_MULTI_WRITER,
          NewNodeServiceCapability csi.NodeServiceCapability_RPC_UNKNOWN ] ∧
    (NewDriver driverVersion o).nscap.map (fun e => e.Type_.Rpc.Type_)
      = [ csi.NodeServiceCapability_RPC_GET_VOLUME_STATS,
          csi.NodeServiceCapability_RPC_SINGLE_NODE_MULTI_WRITER,
          csi.NodeServiceCapability_RPC_UNKNOWN ] :=
  ⟨rfl, rfl⟩

end NFS
